import Mathlib

/-!
Verification of the spectral event detection engine of the
beyond-human-audio-analyzer repository, via a shallow embedding of its
Python sources (`src/analyzer.py`, `src/realtime_monitor.py`,
`src/signal_processing.py`) into Lean 4.

Modelling conventions:
* float arithmetic is idealised as exact arithmetic over `ℚ` (for the purely
  rational computations: band-edge clamping, frequency bins, preprocessing)
  and over `ℝ` (for the transcendental parts: the DFT and dB conversion);
* numpy arrays become Lean lists; a fallible library call becomes
  `Except String`;
* library semantics that the source relies on (numpy/scipy behaviour) are
  embedded from those libraries' documented, deterministic behaviour:
  `scipy.fft.fft` raises on a zero-length input, `np.max` raises on an empty
  array, `np.argmax` returns the first maximising index, and
  `scipy.signal.find_peaks` performs local-maximum detection, height
  filtering, and highest-priority-first distance suppression.
-/

namespace BeyondHuman

/-! ### Band-edge clamping (analyzer.py `apply_bandpass_filter`,
signal_processing.py `bandpass_filter`)

The source computes
`low = max(0.0001, min(lowcut/nyquist, 0.9999))` and
`high = max(low + 0.0001, min(highcut/nyquist, 0.9999))`. -/

/-- Effective band edges, as fractions of the Nyquist frequency, after the
edge-case clamping performed by `apply_bandpass_filter`. -/
def bandEdges (lowcut highcut nyquist : ℚ) : ℚ × ℚ :=
  let low : ℚ := max 0.0001 (min (lowcut / nyquist) 0.9999)
  let high : ℚ := max (low + 0.0001) (min (highcut / nyquist) 0.9999)
  (low, high)

/-! ### Signal conditioning (analyzer.py `preprocess`)

`preprocess` subtracts `np.mean(audio)` and divides by `np.max(np.abs(audio))`
when that maximum is positive.  `np.max` of an empty array raises a
`ValueError` (`np.mean` of an empty array only emits a suppressed warning and
yields NaN, and subtracting it from an empty array is still an empty array),
so the empty buffer is the single failing input. -/

/-- Arithmetic mean of a list of rationals (`np.mean`); the empty-list value
is irrelevant downstream because `preprocess` fails on empty input anyway. -/
def npMean (xs : List ℚ) : ℚ := xs.sum / xs.length

/-- Maximum absolute sample value (`np.max(np.abs(xs))` for nonempty `xs`). -/
def maxAbs (xs : List ℚ) : ℚ := (xs.map (fun a => |a|)).foldr max 0

/-- Shallow embedding of `AudioAnalyzer.preprocess`: DC-offset removal by mean
subtraction, then peak normalization when the maximum absolute value is
positive.  On an empty buffer the `np.max` reduction raises. -/
def preprocess (audio : List ℚ) : Except String (List ℚ) :=
  let centered := audio.map (fun a => a - npMean audio)
  if audio.length = 0 then
    .error "zero-size array to reduction operation maximum which has no identity"
  else if 0 < maxAbs centered then
    .ok (centered.map (fun a => a / maxAbs centered))
  else
    .ok centered

/-! ### The real-time monitor state (realtime_monitor.py `RealtimeMonitor`)

The monitor owns an audio queue (`queue.Queue()` — unbounded, FIFO), a
monitoring flag, a callback list, a detected-event list and, for this
embedding, the stream of log records it emits. -/

/-- Severity of a log record (`logging` levels used by the source). -/
inductive LogLevel where
  | info
  | warning
  | error
deriving DecidableEq, Repr

/-- One log record emitted through `self.logger`. -/
structure LogEntry where
  level : LogLevel
  msg : String
deriving DecidableEq, Repr

/-- A raw capture chunk (the `indata` array delivered by the audio backend),
idealised as a list of rational samples. -/
abbrev Chunk := List ℚ

/-- An event dictionary produced by `RealtimeMonitor._process_audio_buffer`:
type tag, bin frequency, dB magnitude, and a wall-clock timestamp (idealised
as an optional natural tick). -/
structure RTEvent where
  etype : String
  frequencyHz : ℚ
  magnitudeDb : ℝ
  timestamp : Option ℕ

/-- A registered consumer callback: it either returns normally or raises an
exception carrying a message. -/
abbrev EventCallback := RTEvent → Except String Unit

/-- Mutable state of a `RealtimeMonitor` instance. -/
structure MonitorState where
  audioQueue : List Chunk
  isMonitoring : Bool
  eventCallbacks : List EventCallback
  detectedEvents : List RTEvent
  logs : List LogEntry

/-- Shallow embedding of `RealtimeMonitor._audio_callback`: warn when the
backend reports a nonempty status flag, then push a copy of the delivered
chunk onto the (unbounded) `queue.Queue`; the callback is a total function of
the state — it never blocks, and it never discards queued entries. -/
def audio_callback (s : MonitorState) (indata : Chunk) (status : String) : MonitorState :=
  let s1 : MonitorState :=
    if status = "" then s
    else { s with logs := s.logs ++ [⟨.warning, "Audio callback status: " ++ status⟩] }
  { s1 with audioQueue := s1.audioQueue ++ [indata] }

/-- Shallow embedding of `RealtimeMonitor.register_callback`. -/
def register_callback (s : MonitorState) (cb : EventCallback) : MonitorState :=
  { s with eventCallbacks := s.eventCallbacks ++ [cb],
           logs := s.logs ++ [⟨.info, "Registered callback"⟩] }

/-- State effect of `RealtimeMonitor.start`: a no-op when already monitoring;
otherwise registers the optional callback, sets the monitoring flag, and
resets `detected_events` to the empty list. -/
def start (s : MonitorState) (cb : Option EventCallback) : MonitorState :=
  if s.isMonitoring then s
  else
    let s1 := match cb with
      | some c => register_callback s c
      | none => s
    { s1 with isMonitoring := true, detectedEvents := [] }

/-- State effect of `RealtimeMonitor.stop`: a no-op when idle; otherwise
clears the monitoring flag.  The detected-event list is read, never written. -/
def stop (s : MonitorState) : MonitorState :=
  if s.isMonitoring then { s with isMonitoring := false } else s

/-- Shallow embedding of `RealtimeMonitor.clear_events`. -/
def clear_events (s : MonitorState) : MonitorState :=
  { s with detectedEvents := [],
           logs := s.logs ++ [⟨.info, "Cleared detected events"⟩] }

/-- The append of one detected event performed by `_monitor_loop`
(`self.detected_events.append(event)`). -/
def emitEvent (s : MonitorState) (e : RTEvent) : MonitorState :=
  { s with detectedEvents := s.detectedEvents ++ [e] }

/-- Whether one callback invocation raised. -/
def isFailure (r : Except String Unit) : Bool :=
  match r with
  | .ok _ => false
  | .error _ => true

/-- One iteration of the callback loop of `RealtimeMonitor._monitor_loop`:
invoke the callback on the event; a raise is caught by the `try/except` and
recorded via `self.logger.error`. -/
def dispatchStep (e : RTEvent) (acc : List (Except String Unit) × List LogEntry)
    (cb : EventCallback) : List (Except String Unit) × List LogEntry :=
  match cb e with
  | .ok u => (acc.1 ++ [.ok u], acc.2)
  | .error m => (acc.1 ++ [.error m], acc.2 ++ [⟨.error, "Error in event callback: " ++ m⟩])

/-- Shallow embedding of the callback-dispatch loop of
`RealtimeMonitor._monitor_loop`: every registered callback is invoked, in
registration order, on the detected event, and the loop continues past a
raising callback.  Returns the list of invocation outcomes in invocation
order together with the log records produced. -/
def dispatch_callbacks (cbs : List EventCallback) (e : RTEvent) :
    List (Except String Unit) × List LogEntry :=
  cbs.foldl (dispatchStep e) ([], [])

/-- The fresh monitor state right after `RealtimeMonitor.__init__`. -/
def initMonitor : MonitorState := ⟨[], false, [], [], []⟩

/-- A concrete detected event used in concrete scenarios. -/
def sampleEvent : RTEvent := ⟨"infrasound", 5, 0, none⟩

/-- A concrete consumer callback that always raises. -/
def boomCb : EventCallback := fun _ => .error "boom"

/-- A concrete consumer callback that always returns normally. -/
def okCb : EventCallback := fun _ => .ok ()

/-- Eight clean capture-callback invocations against a fresh monitor: the
producer-pushes-`N+5`-chunks scenario with `N = 3`. -/
def overrunScenario : MonitorState :=
  ([[1], [2], [3], [4], [5], [6], [7], [8]] : List Chunk).foldl
    (fun s c => audio_callback s c "") initMonitor

/-- An idle monitor state holding one previously detected event. -/
def idleWithEvent : MonitorState := ⟨[], false, [], [sampleEvent], []⟩

/-! ### Spectral estimation (analyzer.py `compute_fft`,
realtime_monitor.py `_process_audio_buffer`)

Both paths compute `fft(audio)` and `fftfreq(N, 1/sample_rate)`, keep the
strictly positive frequency bins, and convert to dB via
`20*log10(|X[k]| + 1e-10)`.  `scipy.fft.fft` (and `np.fft.fft`) raise a
`ValueError` when the number of data points is zero. -/

/-- The discrete Fourier transform of the full buffer (no zero-padding, no
windowing): `X[k] = Σ_j x[j]·exp(-2πi·j·k/N)` with `N` the buffer length. -/
noncomputable def dft (x : List ℝ) (k : ℕ) : ℂ :=
  ∑ j ∈ Finset.range x.length,
    (x.getD j 0 : ℝ) * Complex.exp (-2 * Real.pi * Complex.I * j * k / x.length)

/-- Frequency of bin `k` as computed by `np.fft.fftfreq(n, 1/sr)`:
`k·sr/n` for `k ≤ (n-1)/2` and `(k-n)·sr/n` for the negative-frequency
mirror half. -/
def fftfreqQ (n : ℕ) (sr : ℚ) (k : ℕ) : ℚ :=
  if k < (n + 1) / 2 then (k : ℚ) * sr / n else ((k : ℤ) - n : ℤ) * sr / n

/-- dB conversion used by both spectral paths:
`20*log10(magnitude + 1e-10)`. -/
noncomputable def magDb (m : ℝ) : ℝ := 20 * Real.logb 10 (m + 1e-10)

/-- Indices of the strictly positive frequency bins (the boolean mask
`fft_freq > 0` applied to `range n`). -/
def posIdx (n : ℕ) (sr : ℚ) : List ℕ :=
  (List.range n).filter (fun k => 0 < fftfreqQ n sr k)

/-- Shallow embedding of `AudioAnalyzer.compute_fft`: the DFT of the full
buffer, restricted to strictly positive frequency bins, with magnitudes in
dB.  A zero-length buffer makes the FFT library call raise. -/
noncomputable def compute_fft (sr : ℚ) (x : List ℝ) :
    Except String (List ℚ × List ℝ) :=
  if x.length = 0 then
    .error "invalid number of data points (0) specified"
  else
    .ok ((posIdx x.length sr).map (fftfreqQ x.length sr),
         (posIdx x.length sr).map (fun k => magDb (Complex.abs (dft x k))))

/-! ### Peak extraction (`scipy.signal.find_peaks` as called by
`detect_infrasound` / `detect_ultrasound`)

`find_peaks(x, height=h, distance=d)` performs, in order:
1. local-maximum detection (`_local_maxima_1d`): a sample strictly greater
   than its neighbours, or the midpoint of a plateau strictly greater than
   both plateau neighbours; the first and last sample never qualify;
2. height filtering: keep maxima whose value is at least `h`;
3. distance suppression (`_select_by_peak_distance`): peaks are visited in
   decreasing priority (priority = height; numpy's argsort leaves equal
   heights in position order, so equal heights are visited latest position
   first), and a visited peak that is still kept removes every other peak
   within `d - 1` bins of it.  The source's left/right early-exit scans
   remove exactly that set because the peak positions are in ascending
   order.
`find_peaks` raises a `ValueError` when `distance < 1`. -/

/-- End of the run of samples equal to `xs[l]` that starts at `l`
(the plateau scan of `_local_maxima_1d`). -/
def runEnd [DecidableEq α] [Inhabited α] (xs : List α) (l : ℕ) : ℕ :=
  l + ((xs.drop (l + 1)).takeWhile (fun v => v = xs.getI l)).length

/-- Whether `l` is the left edge of a local maximum (or maximal plateau):
`xs[l-1] < xs[l]`, the run of equal values ends before the last sample, and
the value after the run is strictly smaller. -/
def isPeakStart [LinearOrder α] [Inhabited α] (xs : List α) (l : ℕ) : Bool :=
  0 < l && runEnd xs l + 1 ≤ xs.length - 1 &&
    xs.getI (l - 1) < xs.getI l && xs.getI (runEnd xs l + 1) < xs.getI l

/-- Local maxima of a buffer, as the plateau midpoints recorded by
`_local_maxima_1d`, in ascending order. -/
def localMaxima [LinearOrder α] [Inhabited α] (xs : List α) : List ℕ :=
  (List.range xs.length).filterMap
    (fun l => if isPeakStart xs l then some ((l + runEnd xs l) / 2) else none)

/-- Local maxima whose height passes the `height` filter (step 2 of
`find_peaks`). -/
def heightFiltered [LinearOrder α] [Inhabited α] (xs : List α) (height : α) : List ℕ :=
  (localMaxima xs).filter (fun p => height ≤ xs.getI p)

/-- Insertion into a list sorted by decreasing priority, equal priorities by
decreasing position: the visit order of `_select_by_peak_distance` (numpy's
stable handling of equal sort keys, reversed). -/
def insertByPrio [LinearOrder α] (pr : ℕ → α) (a : ℕ) : List ℕ → List ℕ
  | [] => [a]
  | b :: l =>
      if pr b < pr a ∨ (pr a = pr b ∧ b < a) then a :: b :: l
      else b :: insertByPrio pr a l

/-- Positions `0, …, n-1` sorted by decreasing priority (ties: decreasing
position): the processing order of `_select_by_peak_distance`. -/
def procOrder [LinearOrder α] (n : ℕ) (pr : ℕ → α) : List ℕ :=
  (List.range n).foldr (insertByPrio pr) []

/-- One visit of `_select_by_peak_distance`: when position `j` is still kept,
remove every other position whose peak index is within `d - 1` bins of peak
`j`. -/
def suppress (pk : ℕ → ℕ) (d : ℕ) (keep : ℕ → Bool) (j : ℕ) : ℕ → Bool :=
  fun k =>
    if keep j then
      if k = j then keep k
      else if Nat.dist (pk k) (pk j) < d then false
      else keep k
    else keep k

/-- Final keep mask of `_select_by_peak_distance` over `n` peak positions
with peak indices `pk`, priorities `pr` and distance `d`. -/
def selectKeep [LinearOrder α] (n : ℕ) (pk : ℕ → ℕ) (pr : ℕ → α) (d : ℕ) : ℕ → Bool :=
  (procOrder n pr).foldl (suppress pk d) (fun _ => true)

/-- The keep mask of the distance-suppression pass over the height-filtered
peaks of `xs`. -/
def peakKeep [LinearOrder α] [Inhabited α] (xs : List α) (height : α) (distance : ℕ) :
    ℕ → Bool :=
  selectKeep (heightFiltered xs height).length
    (fun i => (heightFiltered xs height).getD i 0)
    (fun i => xs.getI ((heightFiltered xs height).getD i 0)) distance

/-- The peak positions surviving height filtering and distance suppression,
in ascending order. -/
def keptPeaks [LinearOrder α] [Inhabited α] (xs : List α) (height : α) (distance : ℕ) :
    List ℕ :=
  ((List.range (heightFiltered xs height).length).filter
      (fun i => peakKeep xs height distance i)).map
    (fun i => (heightFiltered xs height).getD i 0)

/-- Shallow embedding of
`scipy.signal.find_peaks(xs, height=height, distance=distance)` as called by
the detectors: returns the surviving peak indices (ascending) and their
heights, or the `ValueError` raised for `distance < 1`. -/
def findPeaks [LinearOrder α] [Inhabited α] (xs : List α) (height : α) (distance : ℕ) :
    Except String (List ℕ × List α) :=
  if distance < 1 then
    .error "distance must be greater or equal to 1"
  else
    .ok (keptPeaks xs height distance,
      (keptPeaks xs height distance).map (fun p => xs.getI p))

/-! ### Offline event detection (analyzer.py `detect_infrasound`,
`detect_ultrasound`)

Each detector bandpass-filters the buffer, computes the one-sided dB
spectrum, restricts to the band's bins, runs `find_peaks` with the band's
threshold and `int(sample_rate * min_duration)` as the distance, and emits
one typed event per surviving peak.  The Butterworth design-and-apply step
(`scipy.signal.butter` + `scipy.signal.sosfilt`) is numerical filtering whose
coefficients are irrelevant to the claims; it is abstracted as a function
argument `sosfilt` mapping the clamped band edges and the input buffer to the
filtered buffer (the real `sosfilt` maps an empty buffer to an empty buffer
and preserves length). -/

/-- Python `int()` applied to a rational: truncation toward zero. -/
def pyInt (x : ℚ) : ℤ := if 0 ≤ x then ⌊x⌋ else ⌈x⌉

/-- Shallow embedding of `AudioAnalyzer.apply_bandpass_filter`: clamp the
band edges as fractions of Nyquist, then apply the (abstracted) Butterworth
cascade. -/
def apply_bandpass_filter (sosfilt : ℚ × ℚ → List ℝ → List ℝ)
    (sampleRate lowcut highcut : ℚ) (audio : List ℝ) : List ℝ :=
  sosfilt (bandEdges lowcut highcut (sampleRate / 2)) audio

/-- An event dictionary produced by the offline detectors. -/
structure OfflineEvent where
  etype : String
  frequencyHz : ℚ
  magnitudeDb : ℝ
  file : String
  timestamp : Option ℕ

/-- The detection configuration fields consumed by the detectors (from the
`frequency_ranges` and `detection` sections of the configuration). -/
structure DetectCfg where
  sampleRate : ℚ
  infraMin : ℚ
  infraMax : ℚ
  infraThresholdDb : ℝ
  infraMinDuration : ℚ
  ultraMin : ℚ
  ultraMax : ℚ
  ultraThresholdDb : ℝ
  ultraMinDuration : ℚ

/-- Shallow embedding of `AudioAnalyzer.detect_infrasound`. -/
noncomputable def detect_infrasound (sosfilt : ℚ × ℚ → List ℝ → List ℝ)
    (cfg : DetectCfg) (audio : List ℝ) (fileName : String) :
    Except String (List OfflineEvent) :=
  let filtered := apply_bandpass_filter sosfilt cfg.sampleRate cfg.infraMin cfg.infraMax audio
  match compute_fft cfg.sampleRate filtered with
  | .error e => .error e
  | .ok (freqs, mags) =>
    let maskIdx := (List.range freqs.length).filter (fun i => freqs.getI i < cfg.infraMax)
    match findPeaks (maskIdx.map (fun i => mags.getI i)) cfg.infraThresholdDb
        ((pyInt (cfg.sampleRate * cfg.infraMinDuration)).toNat) with
    | .error e => .error e
    | .ok (peaks, heights) =>
      .ok ((List.range peaks.length).map (fun i =>
        { etype := "infrasound",
          frequencyHz := (maskIdx.map (fun i => freqs.getI i)).getI (peaks.getI i),
          magnitudeDb := heights.getI i,
          file := fileName,
          timestamp := none }))

/-- Shallow embedding of `AudioAnalyzer.detect_ultrasound` (the filter call
additionally caps the high edge at `sample_rate/2 - 1000`). -/
noncomputable def detect_ultrasound (sosfilt : ℚ × ℚ → List ℝ → List ℝ)
    (cfg : DetectCfg) (audio : List ℝ) (fileName : String) :
    Except String (List OfflineEvent) :=
  let filtered := apply_bandpass_filter sosfilt cfg.sampleRate cfg.ultraMin
    (min cfg.ultraMax (cfg.sampleRate / 2 - 1000)) audio
  match compute_fft cfg.sampleRate filtered with
  | .error e => .error e
  | .ok (freqs, mags) =>
    let maskIdx := (List.range freqs.length).filter
      (fun i => cfg.ultraMin ≤ freqs.getI i ∧ freqs.getI i ≤ cfg.ultraMax)
    match findPeaks (maskIdx.map (fun i => mags.getI i)) cfg.ultraThresholdDb
        ((pyInt (cfg.sampleRate * cfg.ultraMinDuration)).toNat) with
    | .error e => .error e
    | .ok (peaks, heights) =>
      .ok ((List.range peaks.length).map (fun i =>
        { etype := "ultrasound",
          frequencyHz := (maskIdx.map (fun i => freqs.getI i)).getI (peaks.getI i),
          magnitudeDb := heights.getI i,
          file := fileName,
          timestamp := none }))

/-- The identity filter: a concrete instantiation of the abstracted
Butterworth stage (it trivially maps an empty buffer to an empty buffer). -/
def idFilt : ℚ × ℚ → List ℝ → List ℝ := fun _ x => x

/-- The default configuration of `analyzer.py` (`_default_config`). -/
def defaultCfg : DetectCfg :=
  ⟨96000, 0.01, 20, -40, 0.5, 20000, 48000, -50, 0.05⟩

/-! ### Real-time per-window detection
(realtime_monitor.py `_process_audio_buffer`)

The worker recomputes the one-sided dB spectrum of the accumulated window
and, per band, takes `np.argmax` over the band's bins and compares only that
maximising bin against the band's threshold, emitting at most one event per
band. -/

/-- Magnitude in dB of bin `k` of the window's spectrum. -/
noncomputable def rtMag (audio : List ℝ) (k : ℕ) : ℝ :=
  magDb (Complex.abs (dft audio k))

/-- Indices of the strictly positive bins whose frequency lies in
`[lo, hi]` (the band mask of `_process_audio_buffer`). -/
def bandIdx (n : ℕ) (sr lo hi : ℚ) : List ℕ :=
  (posIdx n sr).filter (fun k => lo ≤ fftfreqQ n sr k ∧ fftfreqQ n sr k ≤ hi)

/-- Shallow embedding of `np.argmax f` over a list of bin indices: the first
index attaining the maximum, or `none` for an empty band (the source guards
with `np.any(mask)`). -/
noncomputable def argmaxOn (f : ℕ → ℝ) : List ℕ → Option ℕ
  | [] => none
  | k :: ks => some (ks.foldl (fun b j => if f b < f j then j else b) k)

/-- One band check of `RealtimeMonitor._process_audio_buffer`: when the band
mask is nonempty, take `np.argmax` over the band's bins and compare only that
maximising bin against the band's threshold (strictly), emitting at most one
tagged event. -/
noncomputable def bandEvents (tag : String) (thresh : ℝ) (n : ℕ) (sr : ℚ)
    (audio : List ℝ) (lo hi : ℚ) : List RTEvent :=
  match argmaxOn (rtMag audio) (bandIdx n sr lo hi) with
  | none => []
  | some k =>
      if thresh < rtMag audio k then
        [{ etype := tag, frequencyHz := fftfreqQ n sr k,
           magnitudeDb := rtMag audio k, timestamp := none }]
      else []

/-- Shallow embedding of `RealtimeMonitor._process_audio_buffer`: the
infrasound band is checked first, then the ultrasound band, each yielding at
most one event per window.  The wall-clock timestamp is idealised as `none`.
A zero-length window would make `np.fft.fft` raise, but the worker invokes
this only on full windows; the embedding returns no events there. -/
noncomputable def process_audio_buffer (cfg : DetectCfg) (audio : List ℝ) :
    List RTEvent :=
  bandEvents "infrasound" cfg.infraThresholdDb audio.length cfg.sampleRate audio
      cfg.infraMin cfg.infraMax ++
    bandEvents "ultrasound" cfg.ultraThresholdDb audio.length cfg.sampleRate audio
      cfg.ultraMin cfg.ultraMax

/-! ## Theorems -/

/-- C1 (counterexample): the capture path has no bounded queue, no
drop-oldest policy and no `BufferOverrunWarning`: after a producer pushes
`N + 5 = 8` chunks (capacity would be `N = 3`) with no consumer draining, all
eight chunks are retained in arrival order and no log record at all — in
particular no warning — has been emitted, contradicting the claimed
"exactly 5 warnings, newest 3 retained". -/
theorem c1_overrun_policy_counterexample :
    overrunScenario.audioQueue = [[1], [2], [3], [4], [5], [6], [7], [8]] ∧
    overrunScenario.logs = [] ∧
    ¬(overrunScenario.audioQueue.length = 3 ∧
      (overrunScenario.logs.filter (fun lg => lg.level = LogLevel.warning)).length = 5) := by
  refine ⟨rfl, rfl, ?_⟩
  intro h
  simp [overrunScenario, initMonitor, audio_callback] at h

/-- C1 (amended): `_audio_callback` pushes every delivered chunk onto an
unbounded `queue.Queue` — it is a total state transformation that never
blocks; no queued entry is ever dropped and (with a clean status flag) no
warning is recorded, so after pushing any number of chunks the queue holds
all of them in arrival order. -/
theorem c1_capture_callback_retains_all (s : MonitorState) (chunks : List Chunk) :
    (chunks.foldl (fun t c => audio_callback t c "") s).audioQueue
        = s.audioQueue ++ chunks ∧
    (chunks.foldl (fun t c => audio_callback t c "") s).logs = s.logs := by
  induction chunks generalizing s with
  | nil => simp
  | cons c cs ih =>
      simpa [audio_callback] using ih { s with audioQueue := s.audioQueue ++ [c] }

/-- C3 (counterexample): with sample rate 96000 Hz (Nyquist 48000) and a
configured band of 48000–49000 Hz, the clamped low edge is 0.9999 and the
clamped high edge is exactly 1 — i.e. exactly the Nyquist frequency — so the
effective band edges do not lie strictly inside (0, 1). -/
theorem c3_band_edge_hits_nyquist_counterexample :
    (bandEdges 48000 49000 48000).1 = 0.9999 ∧
    (bandEdges 48000 49000 48000).2 = 1 ∧
    ¬((bandEdges 48000 49000 48000).2 < 1) := by
  refine ⟨by norm_num [bandEdges], by norm_num [bandEdges], by norm_num [bandEdges]⟩

/-- C3 (amended): after the edge-case clamping, the low edge always lies
strictly inside (0, 1) and below the high edge, and the high edge never
exceeds 1 — but it can equal 1 (the Nyquist frequency), as the counterexample
shows, so the edges lie in (0, 1] rather than strictly inside (0, 1). -/
theorem c3_band_edges_clamped (lowcut highcut nyquist : ℚ) :
    0 < (bandEdges lowcut highcut nyquist).1 ∧
    (bandEdges lowcut highcut nyquist).1 < 1 ∧
    (bandEdges lowcut highcut nyquist).1 < (bandEdges lowcut highcut nyquist).2 ∧
    (bandEdges lowcut highcut nyquist).2 ≤ 1 := by
  unfold bandEdges
  set q := lowcut / nyquist
  set r := highcut / nyquist
  have hlow_pos : (0 : ℚ) < max 0.0001 (min q 0.9999) :=
    lt_of_lt_of_le (by norm_num) (le_max_left _ _)
  have hlow_le : max 0.0001 (min q 0.9999) ≤ 0.9999 :=
    max_le (by norm_num) (min_le_right _ _)
  refine ⟨hlow_pos, lt_of_le_of_lt hlow_le (by norm_num), ?_, ?_⟩
  · exact lt_of_lt_of_le (by linarith) (le_max_left _ _)
  · exact max_le (by linarith) (le_trans (min_le_right _ _) (by norm_num))

/-- C4 (counterexample): the empty buffer is an all-zero buffer on which
`preprocess` raises (the `np.max` reduction over an empty array), so
conditioning does not return every all-zero buffer unchanged without error. -/
theorem c4_preprocess_empty_counterexample :
    preprocess [] =
      .error "zero-size array to reduction operation maximum which has no identity" ∧
    preprocess [] ≠ .ok [] := by
  constructor
  · rfl
  · intro h
    simp [preprocess] at h

/-- Folding `max` with base 0 over an all-zero list yields 0. -/
theorem foldr_max_replicate_zero (m : ℕ) :
    List.foldr max 0 (List.replicate m (0 : ℚ)) = 0 := by
  induction m with
  | zero => rfl
  | succ k ih => simp [List.replicate_succ, ih]

/-- The maximum absolute sample of an all-zero buffer is 0. -/
theorem maxAbs_replicate_zero (n : ℕ) : maxAbs (List.replicate n (0 : ℚ)) = 0 := by
  simp [maxAbs, foldr_max_replicate_zero]

/-- C4 (amended): `preprocess` subtracts the arithmetic mean and divides by
the maximum absolute value only when that maximum is positive; every
*nonempty* all-zero buffer is returned unchanged with no error (the empty
buffer instead makes the `np.max` reduction raise). -/
theorem c4_preprocess_all_zero (n : ℕ) (h : 0 < n) :
    preprocess (List.replicate n (0 : ℚ)) = .ok (List.replicate n 0) := by
  simp [preprocess, npMean, maxAbs_replicate_zero, Nat.pos_iff_ne_zero.mp h]

/-- C4 (witness). -/
theorem c4_preprocess_all_zero_witness :
    0 < 3 ∧ preprocess (List.replicate 3 (0 : ℚ)) = .ok (List.replicate 3 0) :=
  ⟨by decide, c4_preprocess_all_zero 3 (by decide)⟩

/-- C8 (counterexample): `start` on an idle monitor that still holds a
previously detected event resets `detected_events` to the empty list, so
stored events are removed by an operation other than the explicit clear. -/
theorem c8_start_clears_events_counterexample :
    idleWithEvent.detectedEvents ≠ [] ∧
    (start idleWithEvent none).detectedEvents = [] := by
  constructor
  · intro h
    simp [idleWithEvent] at h
  · rfl

/-- C8 (amended): during monitoring the detected-event list grows
monotonically — `_monitor_loop` only appends, and `stop` never touches it —
and it is emptied by the explicit `clear_events` but *also* by `start` when
the monitor is idle (while `start` on an already-running monitor is a no-op
and keeps the list). -/
theorem c8_event_list_lifecycle (s : MonitorState) (e : RTEvent)
    (h : s.isMonitoring = false) :
    (emitEvent s e).detectedEvents = s.detectedEvents ++ [e] ∧
    (stop s).detectedEvents = s.detectedEvents ∧
    (clear_events s).detectedEvents = [] ∧
    (start s none).detectedEvents = [] ∧
    (start { s with isMonitoring := true } none).detectedEvents = s.detectedEvents := by
  refine ⟨rfl, ?_, rfl, ?_, ?_⟩
  · unfold stop
    split <;> rfl
  · simp [start, h]
  · simp [start]

/-- C8 (witness). -/
theorem c8_event_list_lifecycle_witness :
    initMonitor.isMonitoring = false ∧
    ((emitEvent initMonitor sampleEvent).detectedEvents
        = initMonitor.detectedEvents ++ [sampleEvent] ∧
      (stop initMonitor).detectedEvents = initMonitor.detectedEvents ∧
      (clear_events initMonitor).detectedEvents = [] ∧
      (start initMonitor none).detectedEvents = [] ∧
      (start { initMonitor with isMonitoring := true } none).detectedEvents
        = initMonitor.detectedEvents) :=
  ⟨rfl, c8_event_list_lifecycle initMonitor sampleEvent rfl⟩

/-- C9 (counterexample): a raising callback is recorded through
`self.logger.error`, i.e. at error level rather than as a warning, while the
subsequent callback is still invoked; so the claim's "recorded as a warning"
does not match the code. -/
theorem c9_failure_logged_as_error_counterexample :
    (dispatch_callbacks [boomCb, okCb] sampleEvent).1 = [.error "boom", .ok ()] ∧
    (dispatch_callbacks [boomCb, okCb] sampleEvent).2
        = [⟨LogLevel.error, "Error in event callback: boom"⟩] ∧
    LogLevel.error ≠ LogLevel.warning := by
  refine ⟨rfl, rfl, by decide⟩

/-- Unfolding one step of the callback-dispatch fold, for any starting
accumulator: every callback is invoked in registration order, each recorded
failure log is at error level, and one log record is appended per raising
callback. -/
theorem dispatch_foldl_spec (cbs : List EventCallback) (e : RTEvent)
    (acc : List (Except String Unit) × List LogEntry) :
    (cbs.foldl (dispatchStep e) acc).1 = acc.1 ++ cbs.map (fun f => f e) ∧
    (∀ lg ∈ (cbs.foldl (dispatchStep e) acc).2,
        lg ∈ acc.2 ∨ lg.level = LogLevel.error) ∧
    (cbs.foldl (dispatchStep e) acc).2.length =
      acc.2.length + (cbs.filter (fun f => isFailure (f e))).length := by
  induction cbs generalizing acc with
  | nil => exact ⟨by simp, fun lg h => Or.inl h, by simp⟩
  | cons cb rest ih =>
      have hstep := ih (dispatchStep e acc cb)
      refine ⟨?_, ?_, ?_⟩
      · rw [List.foldl_cons, hstep.1]
        cases hcb : cb e <;> simp [dispatchStep, hcb]
      · intro lg hlg
        rw [List.foldl_cons] at hlg
        rcases hstep.2.1 lg hlg with hmem | herr
        · cases hcb : cb e with
          | ok u =>
              simp [dispatchStep, hcb] at hmem
              exact Or.inl hmem
          | error m =>
              simp [dispatchStep, hcb] at hmem
              rcases hmem with h1 | h2
              · exact Or.inl h1
              · right
                rw [h2]
        · exact Or.inr herr
      · rw [List.foldl_cons, hstep.2.2]
        cases hcb : cb e with
        | ok u =>
            simp [dispatchStep, hcb, List.filter_cons,
              show isFailure (Except.ok u) = false from rfl]
        | error m =>
            simp [dispatchStep, hcb, List.filter_cons,
              show isFailure (Except.error m : Except String Unit) = true from rfl]
            ring

/-- C9 (amended): for every detected event and registered callback list, the
dispatcher invokes each callback in registration order; a raising callback
does not prevent any later callback from being invoked and never propagates —
the dispatch is a total function whose outcome list is exactly the
registration-ordered invocation of every callback — and each failure is
recorded as an error-level log record (the source uses `logger.error`, not a
warning), one record per raising callback. -/
theorem c9_dispatch_isolates_failures (cbs : List EventCallback) (e : RTEvent) :
    (dispatch_callbacks cbs e).1 = cbs.map (fun f => f e) ∧
    (∀ lg ∈ (dispatch_callbacks cbs e).2, lg.level = LogLevel.error) ∧
    (dispatch_callbacks cbs e).2.length =
      (cbs.filter (fun f => isFailure (f e))).length := by
  have h := dispatch_foldl_spec cbs e ([], [])
  refine ⟨by simpa [dispatch_callbacks] using h.1, ?_, by simpa [dispatch_callbacks] using h.2.2⟩
  intro lg hlg
  rcases h.2.1 lg hlg with hmem | herr
  · simp at hmem
  · exact herr

/-- Filtering `range n` by a predicate that holds exactly on `[1, m]` yields
the contiguous block `range' 1 (min m (n-1))`. -/
theorem filter_range_eq_range'aux (p : ℕ → Bool) (m : ℕ) :
    ∀ n, (∀ k, k < n → (p k = true ↔ 1 ≤ k ∧ k ≤ m)) →
      (List.range n).filter p = List.range' 1 (min m (n - 1)) := by
  intro n
  induction n with
  | zero => intro _; simp
  | succ n ih =>
      intro hp
      rw [List.range_succ, List.filter_append]
      rw [ih (fun k hk => hp k (Nat.lt_succ_of_lt hk))]
      by_cases hn : 1 ≤ n ∧ n ≤ m
      · have hpn : p n = true := (hp n (Nat.lt_succ_self n)).mpr hn
        have h1 : min m (n - 1) = n - 1 := by omega
        have h2 : min m (n + 1 - 1) = n := by omega
        rw [h1, h2]
        simp only [List.filter_cons, hpn, List.filter_nil]
        have h4 : List.range' 1 n = List.range' 1 (n - 1) ++ [1 + 1 * (n - 1)] := by
          conv_lhs => rw [show n = (n - 1) + 1 by omega]
          exact List.range'_concat 1 (n - 1)
        rw [h4]
        rw [if_pos trivial]
        have h5 : n = 1 + 1 * (n - 1) := by omega
        exact congrArg (fun t => List.range' 1 (n - 1) ++ [t]) h5
      · have hpn : p n = false := by
          rcases Bool.eq_false_or_eq_true (p n) with h | h
          · exact absurd ((hp n (Nat.lt_succ_self n)).mp h) hn
          · exact h
        have h1 : min m (n - 1) = min m (n + 1 - 1) := by omega
        simp only [List.filter_cons, hpn, List.filter_nil]
        rw [h1]
        simp

/-- A frequency bin is strictly positive exactly when it lies in the first
half of the spectrum and is not the DC bin: `fftfreq` is positive on
`1 ≤ k ≤ (n-1)/2`, zero at `k = 0`, and negative on the mirror half. -/
theorem fftfreqQ_pos_iff (n : ℕ) (sr : ℚ) (k : ℕ) (hsr : 0 < sr) (hk : k < n) :
    0 < fftfreqQ n sr k ↔ 1 ≤ k ∧ k ≤ (n - 1) / 2 := by
  have hn0 : 0 < n := lt_of_le_of_lt (Nat.zero_le k) hk
  have hnQ : (0 : ℚ) < n := by exact_mod_cast hn0
  unfold fftfreqQ
  by_cases hbr : k < (n + 1) / 2
  · rw [if_pos hbr]
    constructor
    · intro hpos
      have hk1 : 1 ≤ k := by
        by_contra hc
        push_neg at hc
        have hk0 : k = 0 := by omega
        rw [hk0] at hpos
        simp at hpos
      exact ⟨hk1, by omega⟩
    · rintro ⟨h1, h2⟩
      have hkQ : (0 : ℚ) < k := by exact_mod_cast h1
      exact div_pos (mul_pos hkQ hsr) hnQ
  · rw [if_neg hbr]
    push_neg at hbr
    constructor
    · intro hpos
      exfalso
      have hlt : ((k : ℤ) - n : ℤ) < 0 := by
        have : (k : ℤ) < n := by exact_mod_cast hk
        omega
      have hltQ : (((k : ℤ) - n : ℤ) : ℚ) < 0 := by exact_mod_cast hlt
      have hv : (((k : ℤ) - n : ℤ) : ℚ) * sr / n < 0 :=
        div_neg_of_neg_of_pos (mul_neg_of_neg_of_pos hltQ hsr) hnQ
      linarith
    · rintro ⟨h1, h2⟩
      omega

/-- The strictly positive-frequency mask keeps exactly bins
`1, …, (n-1)/2`: the DC bin and the negative-frequency mirror half are
dropped. -/
theorem posIdx_eq_range' (n : ℕ) (sr : ℚ) (hsr : 0 < sr) :
    posIdx n sr = List.range' 1 ((n - 1) / 2) := by
  unfold posIdx
  have h := filter_range_eq_range'aux (fun k => decide (0 < fftfreqQ n sr k))
    ((n - 1) / 2) n (fun k hk => by
      rw [decide_eq_true_iff]
      exact fftfreqQ_pos_iff n sr k hsr hk)
  rw [h]
  congr 1
  omega

/-- C5 (confirmed): whenever the spectral estimator produces output, the
frequency and magnitude arrays have equal length `(N-1)/2`, every listed
frequency is strictly positive (bin `i` carries frequency `(i+1)·sr/N`, so
the DC bin and the negative-frequency mirror are dropped), and the magnitude
of bin `i` is exactly `20·log10(|X[i+1]| + 1e-10)` for the DFT `X` of the
full unpadded, unwindowed buffer. -/
theorem c5_spectral_estimator_contract (sr : ℚ) (x : List ℝ) (f : List ℚ) (m : List ℝ)
    (hsr : 0 < sr) (h : compute_fft sr x = .ok (f, m)) :
    f.length = m.length ∧
    f.length = (x.length - 1) / 2 ∧
    (∀ q ∈ f, 0 < q) ∧
    (∀ i, i < f.length →
      f.getD i 0 = ((i : ℚ) + 1) * sr / x.length ∧
      m.getD i 0 = magDb (Complex.abs (dft x (i + 1)))) := by
  unfold compute_fft at h
  by_cases hx : x.length = 0
  · rw [if_pos hx] at h
    exact absurd h (by simp)
  · rw [if_neg hx] at h
    simp only [Except.ok.injEq, Prod.mk.injEq] at h
    obtain ⟨hf, hm⟩ := h
    subst hf hm
    rw [posIdx_eq_range' x.length sr hsr]
    set M := (x.length - 1) / 2 with hM
    refine ⟨by simp, by simp, ?_, ?_⟩
    · intro q hq
      rw [List.mem_map] at hq
      obtain ⟨k, hk, hqk⟩ := hq
      rw [List.mem_range'_1] at hk
      have hkx : k < x.length := by omega
      rw [← hqk]
      exact (fftfreqQ_pos_iff x.length sr k hsr hkx).mpr ⟨hk.1, by omega⟩
    · intro i hi
      have hiM : i < M := by simpa using hi
      constructor
      · rw [List.getD_eq_getElem _ _ (by simpa using hiM), List.getElem_map,
          List.getElem_range']
        show fftfreqQ x.length sr (1 + 1 * i) = _
        have hidx : 1 + 1 * i = i + 1 := by omega
        rw [hidx]
        unfold fftfreqQ
        rw [if_pos (by omega)]
        push_cast
        ring
      · rw [List.getD_eq_getElem _ _ (by simpa using hiM), List.getElem_map,
          List.getElem_range']
        have hidx : 1 + 1 * i = i + 1 := by omega
        rw [hidx]

/-- C5 (witness). -/
theorem c5_spectral_estimator_contract_witness :
    (0 : ℚ) < 3 ∧
    compute_fft 3 [(1 : ℝ), 0, 0] =
      .ok ([1], [magDb (Complex.abs (dft [(1 : ℝ), 0, 0] 1))]) ∧
    [(1 : ℚ)].length = [magDb (Complex.abs (dft [(1 : ℝ), 0, 0] 1))].length := by
  have hsr : (0 : ℚ) < 3 := by norm_num
  have heq : compute_fft 3 [(1 : ℝ), 0, 0] =
      .ok ([1], [magDb (Complex.abs (dft [(1 : ℝ), 0, 0] 1))]) := by
    unfold compute_fft
    rw [if_neg (by norm_num)]
    have hpi : posIdx [(1 : ℝ), 0, 0].length 3 = [1] := by
      rw [show [(1 : ℝ), 0, 0].length = 3 from rfl, posIdx_eq_range' 3 3 (by norm_num)]
      rfl
    rw [hpi]
    norm_num [fftfreqQ]
  exact ⟨hsr, heq,
    (c5_spectral_estimator_contract 3 [(1 : ℝ), 0, 0] [1]
      [magDb (Complex.abs (dft [(1 : ℝ), 0, 0] 1))] hsr heq).1⟩

/-- C6 (confirmed): on an all-zero buffer of nonzero length the spectral
estimator succeeds and every bin of the returned magnitude spectrum is
exactly the deterministic floor `20·log10(1e-10)` (the DFT of the zero
buffer vanishes, so each magnitude is `20·log10(0 + 1e-10)`). -/
theorem c6_all_zero_floor (n : ℕ) (sr : ℚ) (hn : 0 < n) (hsr : 0 < sr) :
    compute_fft sr (List.replicate n (0 : ℝ)) =
      .ok ((List.range' 1 ((n - 1) / 2)).map (fun k : ℕ => (k : ℚ) * sr / n),
        List.replicate ((n - 1) / 2) (20 * Real.logb 10 (1e-10))) := by
  have hdft : ∀ k, dft (List.replicate n (0 : ℝ)) k = 0 := by
    intro k
    unfold dft
    apply Finset.sum_eq_zero
    intro j hj
    have hz : (List.replicate n (0 : ℝ)).getD j 0 = 0 := by
      rw [List.getD_eq_getElem?_getD, List.getElem?_replicate]
      split <;> rfl
    rw [hz]
    simp
  unfold compute_fft
  simp only [List.length_replicate]
  rw [if_neg (by omega)]
  rw [posIdx_eq_range' n sr hsr]
  congr 1
  refine Prod.ext ?_ ?_
  · simp only
    apply List.map_congr_left
    intro k hk
    rw [List.mem_range'_1] at hk
    unfold fftfreqQ
    rw [if_pos (by omega)]
  · simp only
    have hc : ∀ k ∈ List.range' 1 ((n - 1) / 2),
        magDb (Complex.abs (dft (List.replicate n (0 : ℝ)) k))
          = 20 * Real.logb 10 (1e-10) := by
      intro k _
      rw [hdft k]
      simp [magDb]
    rw [List.map_congr_left hc, List.map_const', List.length_range']

/-- C6 (witness). -/
theorem c6_all_zero_floor_witness :
    0 < 4 ∧ (0 : ℚ) < 2 ∧
    compute_fft 2 (List.replicate 4 (0 : ℝ)) =
      .ok ((List.range' 1 ((4 - 1) / 2)).map (fun k : ℕ => (k : ℚ) * 2 / ((4 : ℕ) : ℚ)),
        List.replicate ((4 - 1) / 2) (20 * Real.logb 10 (1e-10))) :=
  ⟨by decide, by norm_num, c6_all_zero_floor 4 2 (by decide) (by norm_num)⟩

/-- A position removed by the suppression pass stays removed: `suppress` only
ever turns keep-entries from true to false. -/
theorem foldl_suppress_false (pk : ℕ → ℕ) (d : ℕ) :
    ∀ (l : List ℕ) (keep : ℕ → Bool) (k : ℕ), keep k = false →
      (l.foldl (suppress pk d) keep) k = false := by
  intro l
  induction l with
  | nil => intro keep k h; exact h
  | cons a rest ih =>
      intro keep k h
      rw [List.foldl_cons]
      apply ih
      simp only [suppress]
      split
      · split
        · exact h
        · split
          · rfl
          · exact h
      · exact h

/-- Along any visit order, two distinct positions whose peaks are closer than
the distance cannot both survive: whichever of them is visited first while
still kept removes the other, and a position already removed stays removed. -/
theorem foldl_suppress_separates (pk : ℕ → ℕ) (d : ℕ) :
    ∀ (l : List ℕ) (keep : ℕ → Bool) (i j : ℕ), i ∈ l → j ∈ l → i ≠ j →
      Nat.dist (pk i) (pk j) < d →
      (l.foldl (suppress pk d) keep) i = false ∨
        (l.foldl (suppress pk d) keep) j = false := by
  intro l
  induction l with
  | nil => intro _ i j hi; simp at hi
  | cons a rest ih =>
      intro keep i j hi hj hij hdist
      rw [List.foldl_cons]
      by_cases hir : i ∈ rest ∧ j ∈ rest
      · exact ih (suppress pk d keep a) i j hir.1 hir.2 hij hdist
      · have hcase : a = i ∨ a = j := by
          rcases List.mem_cons.mp hi with h1 | h1
          · exact Or.inl h1.symm
          · rcases List.mem_cons.mp hj with h2 | h2
            · exact Or.inr h2.symm
            · exact absurd ⟨h1, h2⟩ hir
      -- whichever of the two is visited now either is already removed or
      -- removes the other
        rcases hcase with ha | ha
        · subst ha
          by_cases hk : keep a
          · right
            apply foldl_suppress_false
            simp only [suppress]
            rw [if_pos hk, if_neg (Ne.symm hij)]
            rw [if_pos (by rw [Nat.dist_comm]; exact hdist)]
          · left
            apply foldl_suppress_false
            simp only [suppress]
            rw [if_neg hk]
            exact Bool.eq_false_iff.mpr hk
        · subst ha
          by_cases hk : keep a
          · left
            apply foldl_suppress_false
            simp only [suppress]
            rw [if_pos hk, if_neg hij, if_pos hdist]
          · right
            apply foldl_suppress_false
            simp only [suppress]
            rw [if_neg hk]
            exact Bool.eq_false_iff.mpr hk

/-- Membership through priority insertion. -/
theorem mem_insertByPrio [LinearOrder α] (pr : ℕ → α) (a k : ℕ) (l : List ℕ) :
    k ∈ insertByPrio pr a l ↔ k = a ∨ k ∈ l := by
  induction l with
  | nil => simp [insertByPrio]
  | cons b rest ih =>
      unfold insertByPrio
      split
      · simp [List.mem_cons]
      · simp only [List.mem_cons, ih]
        tauto

/-- Every position below `n` is visited by the suppression pass. -/
theorem mem_procOrder [LinearOrder α] (n : ℕ) (pr : ℕ → α) (k : ℕ) (h : k < n) :
    k ∈ procOrder n pr := by
  unfold procOrder
  have hgen : ∀ (l : List ℕ), k ∈ l → k ∈ l.foldr (insertByPrio pr) [] := by
    intro l
    induction l with
    | nil => simp
    | cons b rest ih =>
        intro hk
        rw [List.foldr_cons, mem_insertByPrio]
        rcases List.mem_cons.mp hk with h1 | h1
        · exact Or.inl h1
        · exact Or.inr (ih h1)
  exact hgen _ (List.mem_range.mpr h)

/-- Two distinct surviving positions of the distance-suppression pass carry
peaks at least `d` bins apart. -/
theorem selectKeep_separates [LinearOrder α] (n : ℕ) (pk : ℕ → ℕ) (pr : ℕ → α) (d : ℕ)
    (i j : ℕ) (hi : i < n) (hj : j < n) (hij : i ≠ j)
    (hki : selectKeep n pk pr d i = true) (hkj : selectKeep n pk pr d j = true) :
    d ≤ Nat.dist (pk i) (pk j) := by
  by_contra hc
  push_neg at hc
  unfold selectKeep at hki hkj
  rcases foldl_suppress_separates pk d (procOrder n pr) (fun _ => true) i j
      (mem_procOrder n pr i hi) (mem_procOrder n pr j hj) hij hc with h | h
  · rw [h] at hki; exact Bool.noConfusion hki
  · rw [h] at hkj; exact Bool.noConfusion hkj

/-- Every returned peak is a local maximum that passed the height filter. -/
theorem keptPeaks_sound [LinearOrder α] [Inhabited α] (xs : List α) (height : α) (d : ℕ) :
    ∀ p ∈ keptPeaks xs height d, p ∈ localMaxima xs ∧ height ≤ xs.getI p := by
  intro p hp
  unfold keptPeaks at hp
  rw [List.mem_map] at hp
  obtain ⟨i, hifil, hpi⟩ := hp
  rw [List.mem_filter, List.mem_range] at hifil
  have hmem : (heightFiltered xs height).getD i 0 ∈ heightFiltered xs height := by
    rw [List.getD_eq_getElem _ _ hifil.1]
    exact List.getElem_mem _
  rw [← hpi]
  unfold heightFiltered at hmem
  rw [List.mem_filter] at hmem
  exact ⟨hmem.1, by simpa using hmem.2⟩

/-- No two returned peaks are closer than the minimum separation. -/
theorem keptPeaks_pairwise [LinearOrder α] [Inhabited α] (xs : List α) (height : α) (d : ℕ) :
    (keptPeaks xs height d).Pairwise (fun p q => d ≤ Nat.dist p q) := by
  unfold keptPeaks
  rw [List.pairwise_map]
  apply List.Pairwise.imp_of_mem ?_
    ((List.pairwise_lt_range _).filter (fun i => peakKeep xs height d i))
  intro a b ha hb hab
  rw [List.mem_filter, List.mem_range] at ha hb
  exact selectKeep_separates (heightFiltered xs height).length
    (fun i => (heightFiltered xs height).getD i 0)
    (fun i => xs.getI ((heightFiltered xs height).getD i 0)) d a b
    ha.1 hb.1 (Nat.ne_of_lt hab) ha.2 hb.2

/-- Two conflicting peaks, the first strictly higher: the visit order is
first-then-second and the first survives. -/
theorem selectKeep_pair_lt [LinearOrder α] (pk : ℕ → ℕ) (pr : ℕ → α) (d : ℕ)
    (hd : Nat.dist (pk 0) (pk 1) < d) (h : pr 1 < pr 0) :
    selectKeep 2 pk pr d 0 = true ∧ selectKeep 2 pk pr d 1 = false := by
  have hord : procOrder 2 pr = [0, 1] := by
    show insertByPrio pr 0 (insertByPrio pr 1 []) = [0, 1]
    rw [show insertByPrio pr 1 [] = [1] from rfl]
    unfold insertByPrio
    rw [if_pos (Or.inl h)]
  unfold selectKeep
  rw [hord]
  have hdist10 : Nat.dist (pk 1) (pk 0) < d := by rw [Nat.dist_comm]; exact hd
  constructor
  · simp [List.foldl_cons, suppress, hdist10]
  · simp [List.foldl_cons, suppress, hdist10]

/-- Two conflicting peaks with the second not lower (equal heights included):
the visit order is second-then-first and the second — the *later* index —
survives. -/
theorem selectKeep_pair_ge [LinearOrder α] (pk : ℕ → ℕ) (pr : ℕ → α) (d : ℕ)
    (hd : Nat.dist (pk 0) (pk 1) < d) (h : ¬ pr 1 < pr 0) :
    selectKeep 2 pk pr d 0 = false ∧ selectKeep 2 pk pr d 1 = true := by
  have hord : procOrder 2 pr = [1, 0] := by
    show insertByPrio pr 0 (insertByPrio pr 1 []) = [1, 0]
    rw [show insertByPrio pr 1 [] = [1] from rfl]
    unfold insertByPrio
    have hneg : ¬(pr 1 < pr 0 ∨ (pr 0 = pr 1 ∧ 1 < 0)) := by
      rintro (h1 | ⟨-, h1⟩)
      · exact h h1
      · omega
    rw [if_neg hneg]
    rfl
  unfold selectKeep
  rw [hord]
  constructor
  · simp [List.foldl_cons, suppress, hd]
  · simp [List.foldl_cons, suppress, hd]

/-- Resolution of an isolated conflicting pair: the extractor keeps the
higher peak, and on an exact height tie the peak with the later index. -/
theorem keptPeaks_pair [LinearOrder α] [Inhabited α] (xs : List α) (height : α) (d : ℕ)
    (p q : ℕ) (hpq : heightFiltered xs height = [p, q]) (hd : Nat.dist p q < d) :
    keptPeaks xs height d = if xs.getI q < xs.getI p then [p] else [q] := by
  unfold keptPeaks peakKeep
  rw [hpq]
  rw [show ([p, q] : List ℕ).length = 2 from rfl]
  have hpk0 : (fun i => ([p, q] : List ℕ).getD i 0) 0 = p := rfl
  have hpk1 : (fun i => ([p, q] : List ℕ).getD i 0) 1 = q := rfl
  have hdd : Nat.dist ((fun i => ([p, q] : List ℕ).getD i 0) 0)
      ((fun i => ([p, q] : List ℕ).getD i 0) 1) < d := hd
  by_cases hc : xs.getI q < xs.getI p
  · obtain ⟨hk0, hk1⟩ := selectKeep_pair_lt
      (fun i => ([p, q] : List ℕ).getD i 0)
      (fun i => xs.getI (([p, q] : List ℕ).getD i 0)) d hdd hc
    rw [if_pos hc]
    rw [show List.range 2 = [0, 1] from rfl]
    simp only [List.filter_cons, List.filter_nil]
    rw [hk0, hk1]
    simp
  · obtain ⟨hk0, hk1⟩ := selectKeep_pair_ge
      (fun i => ([p, q] : List ℕ).getD i 0)
      (fun i => xs.getI (([p, q] : List ℕ).getD i 0)) d hdd hc
    rw [if_neg hc]
    rw [show List.range 2 = [0, 1] from rfl]
    simp only [List.filter_cons, List.filter_nil]
    rw [hk0, hk1]
    simp

/-- C2 (counterexample): on the magnitude array `[0,1,0,1,0]` with threshold 0
and minimum separation 5, the two qualifying local maxima sit at indices 1
and 3 with exactly equal heights and conflict; the extractor keeps index 3 —
the *later* index — not the earlier index 1 the claim requires. -/
theorem c2_tie_break_counterexample :
    localMaxima ([0, 1, 0, 1, 0] : List ℚ) = [1, 3] ∧
    ([0, 1, 0, 1, 0] : List ℚ).getI 1 = ([0, 1, 0, 1, 0] : List ℚ).getI 3 ∧
    findPeaks ([0, 1, 0, 1, 0] : List ℚ) 0 5 = .ok ([3], [1]) :=
  ⟨rfl, rfl, rfl⟩

/-- C2 (amended): whenever the peak extractor succeeds it returns only
qualifying local maxima (maxima whose height passes the threshold) with their
heights, never two peaks closer than `min_separation_samples` bins apart;
when exactly two qualifying peaks conflict it keeps the higher one, breaking
exact-height ties by keeping the *later* index (the suppression pass visits
equal-priority peaks latest position first). -/
theorem c2_peak_extractor (xs : List ℚ) (height : ℚ) (d : ℕ) (ps : List ℕ) (hs : List ℚ)
    (hok : findPeaks xs height d = .ok (ps, hs)) :
    (∀ p ∈ ps, p ∈ localMaxima xs ∧ height ≤ xs.getI p) ∧
    ps.Pairwise (fun p q => d ≤ Nat.dist p q) ∧
    hs = ps.map (fun p => xs.getI p) ∧
    (∀ p q : ℕ, heightFiltered xs height = [p, q] → Nat.dist p q < d →
      ps = if xs.getI q < xs.getI p then [p] else [q]) := by
  unfold findPeaks at hok
  by_cases hd : d < 1
  · rw [if_pos hd] at hok
    exact absurd hok (by simp)
  · rw [if_neg hd] at hok
    simp only [Except.ok.injEq, Prod.mk.injEq] at hok
    obtain ⟨hps, hhs⟩ := hok
    subst hps
    refine ⟨keptPeaks_sound xs height d, keptPeaks_pairwise xs height d, hhs.symm, ?_⟩
    intro p q hpq hdist
    exact keptPeaks_pair xs height d p q hpq hdist

/-- C2 (witness). -/
theorem c2_peak_extractor_witness :
    findPeaks ([0, 2, 0, 1, 0] : List ℚ) 0 5 = .ok ([1], [2]) ∧
    heightFiltered ([0, 2, 0, 1, 0] : List ℚ) 0 = [1, 3] ∧
    Nat.dist 1 3 < 5 ∧
    ([1] : List ℕ) =
      (if ([0, 2, 0, 1, 0] : List ℚ).getI 3 < ([0, 2, 0, 1, 0] : List ℚ).getI 1
        then [1] else [3]) :=
  ⟨rfl, rfl, by decide,
    (c2_peak_extractor [0, 2, 0, 1, 0] 0 5 [1] [2] rfl).2.2.2 1 3 rfl (by decide)⟩

/-- C7 (counterexample): with the default configuration and the identity
instantiation of the (abstracted) filter stage, the infrasound detector on an
empty buffer propagates the `ValueError` raised by the zero-length FFT — it
does not return an empty event list. -/
theorem c7_empty_buffer_counterexample :
    detect_infrasound idFilt defaultCfg [] "empty.wav" =
      .error "invalid number of data points (0) specified" ∧
    detect_infrasound idFilt defaultCfg [] "empty.wav" ≠ .ok [] := by
  constructor
  · rfl
  · intro h
    rw [show detect_infrasound idFilt defaultCfg [] "empty.wav" =
      .error "invalid number of data points (0) specified" from rfl] at h
    exact Except.noConfusion h

/-- C7 (amended): for every configuration, source label and filter
implementation that maps an empty buffer to an empty buffer (as
`scipy.signal.sosfilt` does), both detectors applied to an empty input buffer
raise the zero-length-FFT error instead of returning an empty event list. -/
theorem c7_empty_buffer_raises (sosfilt : ℚ × ℚ → List ℝ → List ℝ)
    (cfg : DetectCfg) (name : String)
    (hf1 : sosfilt (bandEdges cfg.infraMin cfg.infraMax (cfg.sampleRate / 2)) [] = [])
    (hf2 : sosfilt (bandEdges cfg.ultraMin (min cfg.ultraMax (cfg.sampleRate / 2 - 1000))
      (cfg.sampleRate / 2)) [] = []) :
    detect_infrasound sosfilt cfg [] name =
      .error "invalid number of data points (0) specified" ∧
    detect_ultrasound sosfilt cfg [] name =
      .error "invalid number of data points (0) specified" := by
  unfold detect_infrasound detect_ultrasound apply_bandpass_filter
  rw [hf1, hf2]
  constructor <;> rfl

/-- C7 (witness). -/
theorem c7_empty_buffer_raises_witness :
    idFilt (bandEdges defaultCfg.infraMin defaultCfg.infraMax (defaultCfg.sampleRate / 2)) [] = [] ∧
    idFilt (bandEdges defaultCfg.ultraMin (min defaultCfg.ultraMax (defaultCfg.sampleRate / 2 - 1000))
      (defaultCfg.sampleRate / 2)) [] = [] ∧
    (detect_infrasound idFilt defaultCfg [] "empty.wav" =
        .error "invalid number of data points (0) specified" ∧
      detect_ultrasound idFilt defaultCfg [] "empty.wav" =
        .error "invalid number of data points (0) specified") :=
  ⟨rfl, rfl, c7_empty_buffer_raises idFilt defaultCfg "empty.wav" rfl rfl⟩

/-- The strict-improvement fold of `np.argmax` stays inside the candidate
set and attains the maximum. -/
theorem foldl_argmax_spec (f : ℕ → ℝ) :
    ∀ (l : List ℕ) (b : ℕ),
      (l.foldl (fun b j => if f b < f j then j else b) b) ∈ b :: l ∧
      f b ≤ f (l.foldl (fun b j => if f b < f j then j else b) b) ∧
      ∀ j ∈ l, f j ≤ f (l.foldl (fun b j => if f b < f j then j else b) b) := by
  intro l
  induction l with
  | nil => intro b; exact ⟨List.mem_singleton_self b, le_refl _, by simp⟩
  | cons j rest ih =>
      intro b
      rw [List.foldl_cons]
      obtain ⟨hmem, hle, hall⟩ := ih (if f b < f j then j else b)
      have hbb : f b ≤ f (if f b < f j then j else b) := by
        by_cases hc : f b < f j
        · rw [if_pos hc]; exact le_of_lt hc
        · rw [if_neg hc]
      have hjb : f j ≤ f (if f b < f j then j else b) := by
        by_cases hc : f b < f j
        · rw [if_pos hc]
        · rw [if_neg hc]; exact le_of_not_lt hc
      refine ⟨?_, le_trans hbb hle, ?_⟩
      · rcases List.mem_cons.mp hmem with h1 | h1
        · rw [h1]
          by_cases hc : f b < f j
          · rw [if_pos hc]; exact List.mem_cons_of_mem _ (List.mem_cons_self _ _)
          · rw [if_neg hc]; exact List.mem_cons_self _ _
        · exact List.mem_cons_of_mem _ (List.mem_cons_of_mem _ h1)
      · intro x hx
        rcases List.mem_cons.mp hx with h1 | h1
        · rw [h1]; exact le_trans hjb hle
        · exact hall x h1

/-- A returned argmax index belongs to the band and maximises the magnitude
over it. -/
theorem argmaxOn_spec (f : ℕ → ℝ) (l : List ℕ) (k : ℕ)
    (h : argmaxOn f l = some k) : k ∈ l ∧ ∀ j ∈ l, f j ≤ f k := by
  cases l with
  | nil => exact absurd h (by simp [argmaxOn])
  | cons b rest =>
      rw [argmaxOn, Option.some.injEq] at h
      obtain ⟨hmem, hle, hall⟩ := foldl_argmax_spec f rest b
      rw [h] at hmem hle hall
      refine ⟨hmem, ?_⟩
      intro x hx
      rcases List.mem_cons.mp hx with h1 | h1
      · rw [h1]; exact hle
      · exact hall x h1

/-- A band check emits at most one event. -/
theorem bandEvents_length (tag : String) (thresh : ℝ) (n : ℕ) (sr : ℚ)
    (audio : List ℝ) (lo hi : ℚ) :
    (bandEvents tag thresh n sr audio lo hi).length ≤ 1 := by
  unfold bandEvents
  cases argmaxOn (rtMag audio) (bandIdx n sr lo hi) with
  | none => simp
  | some k =>
      by_cases hc : thresh < rtMag audio k
      · simp [hc]
      · simp [hc]

/-- Every event a band check emits carries the band's tag, a magnitude
strictly above the band's threshold, and that magnitude dominates every bin
of the band. -/
theorem bandEvents_mem (tag : String) (thresh : ℝ) (n : ℕ) (sr : ℚ)
    (audio : List ℝ) (lo hi : ℚ) :
    ∀ e ∈ bandEvents tag thresh n sr audio lo hi,
      e.etype = tag ∧ thresh < e.magnitudeDb ∧
      ∀ k ∈ bandIdx n sr lo hi, rtMag audio k ≤ e.magnitudeDb := by
  intro e he
  unfold bandEvents at he
  cases hA : argmaxOn (rtMag audio) (bandIdx n sr lo hi) with
  | none => rw [hA] at he; exact absurd he (by simp)
  | some k =>
      rw [hA] at he
      dsimp only at he
      by_cases hc : thresh < rtMag audio k
      · rw [if_pos hc] at he
        rw [List.mem_singleton] at he
        subst he
        exact ⟨rfl, hc, fun j hj => (argmaxOn_spec _ _ _ hA).2 j hj⟩
      · rw [if_neg hc] at he
        exact absurd he (by simp)

/-- C10 (confirmed): every analysis window produces at most one infrasound
and at most one ultrasound event (at most two events in total); each emitted
event carries a magnitude strictly above its band's threshold that dominates
every bin of its band, i.e. only the single maximising bin of the band is
compared against the threshold.  By contrast, the offline peak extractor can
return two peaks in one band (the final conjunct exhibits a magnitude array
on which it returns two), and the offline detectors emit one event per
surviving peak. -/
theorem c10_realtime_at_most_one_event_per_band (cfg : DetectCfg) (audio : List ℝ) :
    ((process_audio_buffer cfg audio).filter
        (fun e => e.etype = "infrasound")).length ≤ 1 ∧
    ((process_audio_buffer cfg audio).filter
        (fun e => e.etype = "ultrasound")).length ≤ 1 ∧
    (process_audio_buffer cfg audio).length ≤ 2 ∧
    (∀ e ∈ process_audio_buffer cfg audio,
      (e.etype = "infrasound" →
        cfg.infraThresholdDb < e.magnitudeDb ∧
        ∀ k ∈ bandIdx audio.length cfg.sampleRate cfg.infraMin cfg.infraMax,
          rtMag audio k ≤ e.magnitudeDb) ∧
      (e.etype = "ultrasound" →
        cfg.ultraThresholdDb < e.magnitudeDb ∧
        ∀ k ∈ bandIdx audio.length cfg.sampleRate cfg.ultraMin cfg.ultraMax,
          rtMag audio k ≤ e.magnitudeDb)) ∧
    findPeaks ([0, 5, 0, 5, 0] : List ℚ) 1 1 = .ok ([1, 3], [5, 5]) := by
  have hI := bandEvents_mem "infrasound" cfg.infraThresholdDb audio.length
    cfg.sampleRate audio cfg.infraMin cfg.infraMax
  have hU := bandEvents_mem "ultrasound" cfg.ultraThresholdDb audio.length
    cfg.sampleRate audio cfg.ultraMin cfg.ultraMax
  have hIlen := bandEvents_length "infrasound" cfg.infraThresholdDb audio.length
    cfg.sampleRate audio cfg.infraMin cfg.infraMax
  have hUlen := bandEvents_length "ultrasound" cfg.ultraThresholdDb audio.length
    cfg.sampleRate audio cfg.ultraMin cfg.ultraMax
  refine ⟨?_, ?_, ?_, ?_, rfl⟩
  · unfold process_audio_buffer
    rw [List.filter_append]
    have hUf : (bandEvents "ultrasound" cfg.ultraThresholdDb audio.length
        cfg.sampleRate audio cfg.ultraMin cfg.ultraMax).filter
          (fun e => e.etype = "infrasound") = [] := by
      rw [List.filter_eq_nil_iff]
      intro e he
      have h0 := (hU e he).1
      simp [h0]
    rw [hUf, List.append_nil]
    exact le_trans (List.length_filter_le _ _) hIlen
  · unfold process_audio_buffer
    rw [List.filter_append]
    have hIf : (bandEvents "infrasound" cfg.infraThresholdDb audio.length
        cfg.sampleRate audio cfg.infraMin cfg.infraMax).filter
          (fun e => e.etype = "ultrasound") = [] := by
      rw [List.filter_eq_nil_iff]
      intro e he
      have h0 := (hI e he).1
      simp [h0]
    rw [hIf, List.nil_append]
    exact le_trans (List.length_filter_le _ _) hUlen
  · unfold process_audio_buffer
    rw [List.length_append]
    omega
  · intro e he
    unfold process_audio_buffer at he
    rcases List.mem_append.mp he with h1 | h1
    · refine ⟨fun _ => (hI e h1).2, fun habs => ?_⟩
      have h0 := (hI e h1).1
      rw [h0] at habs
      exact absurd habs (by decide)
    · refine ⟨fun habs => ?_, fun _ => (hU e h1).2⟩
      have h0 := (hU e h1).1
      rw [h0] at habs
      exact absurd habs (by decide)

end BeyondHuman
